/-
Verification of the CO₂ what-if simulator's core (rules_engine.py and
simulation.py) against its natural-language specification.

Embedding choices:
* Python floats are modelled as exact rationals (ℚ).  All quantities the
  spec pins down ("up to floating-point epsilon") are exact in ℚ.
* A Python dict is modelled as an insertion-ordered association list
  `List (String × α)` with first-match lookup.  `Dict.set` updates the
  first occurrence in place (keeping its position) or appends, and
  `Dict.setdefault` appends only when the key is absent — exactly the
  observable behaviour of CPython dicts.  A genuine Python dict never has
  duplicate keys; theorems that iterate over a quantified change map add a
  `Nodup` hypothesis on its keys where duplicates would matter.
* A value that `float()` cannot convert (e.g. a string like "abc", None)
  is `PyVal.nonNum`; `float()` on it raises, modelled by `Except.error`.
* The `values` argument of the two entry points may be a non-mapping;
  that is `PyArg.nonDict`.  Calling `.items()` on it raises an
  AttributeError (CPython semantics for str/list/int/None), while the
  facade's explicit `raise ValueError(...)` is a distinct error
  constructor, so the two failure modes are distinguishable.
* Python's `set` iteration order (used only to `setdefault` missing
  sectors to 0.0, lines 62-69 of rules_engine.py) is unspecified; the
  embedding fixes one enumeration order.  All claims observe the result
  through key lookup and key membership, which are order-insensitive.
* Rule coefficients are modelled as ℚ directly (the `float(coeff)` at
  line 103 is the identity on them); no claim concerns malformed graphs.
-/

import Mathlib

namespace Co2

/-- A Python value that may or may not be convertible by `float()`. -/
inductive PyVal where
  | num : ℚ → PyVal
  | nonNum : PyVal
deriving DecidableEq

/-- The error outcomes of the two entry points, distinguished by raise site:
`valueError` is the facade's explicit `raise ValueError('sector_data must be
a dict mapping sector->value')`; `floatConvError` is `float()` failing on a
non-convertible value (line 60 of rules_engine.py); `attributeError` is
`.items()` on a non-mapping argument. -/
inductive PyErr where
  | valueError : String → PyErr
  | floatConvError : PyErr
  | attributeError : PyErr
deriving DecidableEq

/-- The `values` argument as the entry points receive it: either a dict or
some non-mapping object (str, list, int, None, ...). -/
inductive PyArg where
  | dict : List (String × PyVal) → PyArg
  | nonDict : PyArg
deriving DecidableEq

/-- A Python dict with string keys: insertion-ordered association list. -/
abbrev Dict (α : Type) : Type := List (String × α)

namespace Dict

/-- Python `d.get(k)` / `d[k]` lookup: first matching entry. -/
def get? {α : Type} (d : Dict α) (k : String) : Option α :=
  match d with
  | [] => none
  | (k', v) :: rest => if k' = k then some v else get? rest k

/-- Python `d.get(k, default)`. -/
def getD {α : Type} (d : Dict α) (k : String) (v₀ : α) : α :=
  (get? d k).getD v₀

/-- Python `d[k] = v`: update the first occurrence in place, else append. -/
def set {α : Type} (d : Dict α) (k : String) (v : α) : Dict α :=
  match d with
  | [] => [(k, v)]
  | (k', v') :: rest => if k' = k then (k', v) :: rest else (k', v') :: set rest k v

/-- Python `d.setdefault(k, v₀)` (result dict; the returned value is unused). -/
def setdefault {α : Type} (d : Dict α) (k : String) (v₀ : α) : Dict α :=
  match get? d k with
  | some _ => d
  | none => d ++ [(k, v₀)]

/-- Python `list(d.keys())`. -/
def keys {α : Type} (d : Dict α) : List String :=
  d.map Prod.fst

end Dict

/-- Python's `abs` on a (rational-modelled) float. -/
def pyAbs (x : ℚ) : ℚ :=
  if x < 0 then -x else x

/-- Python `float(v)` — raises on a non-convertible value. -/
def pyFloat (v : PyVal) : Except PyErr ℚ :=
  match v with
  | .num q => .ok q
  | .nonNum => .error .floatConvError

/-- Python `try: x = float(v)  except Exception: x = d` — the leniency pattern used
at lines 74-78 of rules_engine.py and lines 23-26 of simulation.py. -/
def pyFloatD (v : PyVal) (d : ℚ) : ℚ :=
  match v with
  | .num q => q
  | .nonNum => d

/-- The module-level default rule set (rules_engine.py lines 33-38). -/
def rules : Dict (Dict ℚ) :=
  [("transport", [("industry", -0.05), ("power", -0.02)]),
   ("industry", [("power", -0.08)]),
   ("residential", [("power", -0.03)]),
   ("power", [])]

/-- Line 60: `updated = {s: float(v) for s, v in sector_data.items()}`.
The comprehension raises at the first non-convertible value. -/
def copyFloat (d : Dict PyVal) : Except PyErr (Dict ℚ) :=
  match d with
  | [] => .ok []
  | (s, v) :: rest =>
    match pyFloat v with
    | .error e => .error e
    | .ok q =>
      match copyFloat rest with
      | .error e => .error e
      | .ok r => .ok ((s, q) :: r)

/-- The source and target nodes of a rules map, as enumerated by lines
64-67 (`for a, outs in rules_map.items(): add a; for b in outs: add b`). -/
def rulesNodes (rules_map : Dict (Dict ℚ)) : List String :=
  rules_map.foldr (fun p acc => p.1 :: Dict.keys p.2 ++ acc) []

/-- The target nodes only (every `b` of an edge `a → b`). -/
def targetsOf (rules_map : Dict (Dict ℚ)) : List String :=
  rules_map.foldr (fun p acc => Dict.keys p.2 ++ acc) []

/-- Lines 62-69: the sector universe (keys of `updated`, keys of the change
map, and all rule nodes), then `updated.setdefault(s, 0.0)` for each.  Python
enumerates the universe as a set in unspecified order; this embedding fixes
one order, which is observationally equivalent (all additions are 0.0 and
`setdefault` is idempotent and order-insensitive for key lookup). -/
def ensureAll (updated : Dict ℚ) (sector_changes : Dict PyVal)
    (rules_map : Dict (Dict ℚ)) : Dict ℚ :=
  (Dict.keys updated ++ Dict.keys sector_changes ++ rulesNodes rules_map).foldl
    (fun u s => Dict.setdefault u s 0) updated

/-- Lines 73-82: one-time direct application.  For each `(s, pct)` of the
change map: `p = float(pct)` with fallback 0.0; `base = updated.get(s, 0.0)`;
`delta = base * p`; `direct_delta[s] = delta`; `updated[s] = base + delta`.
Returns `(direct_delta, updated)`. -/
def directStep (st : Dict ℚ × Dict ℚ) (p : String × PyVal) : Dict ℚ × Dict ℚ :=
  let pq := pyFloatD p.2 0
  let base := Dict.getD st.2 p.1 0
  let delta := base * pq
  (Dict.set st.1 p.1 delta, Dict.set st.2 p.1 (base + delta))

def applyDirect (sector_changes : Dict PyVal) (updated : Dict ℚ) :
    Dict ℚ × Dict ℚ :=
  sector_changes.foldl directStep ([], updated)

/-- Lines 101-108, inner loop: propagate one frontier entry's delta along
each outgoing edge.  State is `(updated, next_delta, max_change)`. -/
def edgeStep (tol damping amt : ℚ) (st : Dict ℚ × Dict ℚ × ℚ)
    (e : String × ℚ) : Dict ℚ × Dict ℚ × ℚ :=
  let effect := amt * e.2 * damping
  if pyAbs effect < tol then st
  else (Dict.set st.1 e.1 (Dict.getD st.1 e.1 0 + effect),
        Dict.set st.2.1 e.1 (Dict.getD st.2.1 e.1 0 + effect),
        max st.2.2 (pyAbs effect))

def propagateEdges (tol damping amt : ℚ) (outs : Dict ℚ)
    (st : Dict ℚ × Dict ℚ × ℚ) : Dict ℚ × Dict ℚ × ℚ :=
  outs.foldl (edgeStep tol damping amt) st

/-- Lines 94-108, one cascade round: for each `(a, change_amt)` of the
frontier, skip it when `|change_amt| < tol`, else propagate along
`rules_map.get(a, {})`.  Returns `(updated, next_delta, max_change)`. -/
def roundStep (rules_map : Dict (Dict ℚ)) (tol damping : ℚ)
    (st : Dict ℚ × Dict ℚ × ℚ) (p : String × ℚ) : Dict ℚ × Dict ℚ × ℚ :=
  if pyAbs p.2 < tol then st
  else propagateEdges tol damping p.2 (Dict.getD rules_map p.1 []) st

def propagateRound (rules_map : Dict (Dict ℚ)) (tol damping : ℚ)
    (current_delta : Dict ℚ) (updated : Dict ℚ) : Dict ℚ × Dict ℚ × ℚ :=
  current_delta.foldl (roundStep rules_map tol damping) (updated, [], 0)

/-- Lines 91-114: the bounded cascade loop.  `fuel` is the number of
remaining iterations of `for iteration in range(max_iterations)`; the body
breaks on an empty frontier, runs a round, breaks when `max_change <= tol`,
and otherwise continues with `damping_factor *= 0.9`. -/
def propagateLoop (rules_map : Dict (Dict ℚ)) (tol : ℚ) :
    Nat → ℚ → Dict ℚ → Dict ℚ → Dict ℚ
  | 0, _, _, updated => updated
  | fuel + 1, damping, current_delta, updated =>
    if current_delta = [] then updated
    else
      match propagateRound rules_map tol damping current_delta updated with
      | (updated', next_delta, max_change) =>
        if max_change ≤ tol then updated'
        else propagateLoop rules_map tol fuel (damping * 0.9) next_delta updated'

/-- rules_engine.apply_rules (lines 41-116) on a dict-typed `sector_data`.
`rules_map = none` models the Python default `None`, replaced by the
module-level `rules` (lines 56-57). -/
def apply_rules (sector_data sector_changes : Dict PyVal)
    (rules_map : Option (Dict (Dict ℚ)) := none)
    (max_iterations : Nat := 10) (tol : ℚ := 1e-6) : Except PyErr (Dict ℚ) :=
  let rmap := rules_map.getD rules
  match copyFloat sector_data with
  | .error e => .error e
  | .ok upd₀ =>
    let upd₁ := ensureAll upd₀ sector_changes rmap
    match applyDirect sector_changes upd₁ with
    | (direct_delta, upd₂) =>
      .ok (propagateLoop rmap tol max_iterations 0.8 direct_delta upd₂)

/-- apply_rules as called with an arbitrary (possibly non-mapping)
`sector_data` argument: line 60 immediately calls `sector_data.items()`,
which on a non-mapping raises an AttributeError before any other work. -/
def applyRulesArg (sector_data : PyArg) (sector_changes : Dict PyVal)
    (rules_map : Option (Dict (Dict ℚ)) := none)
    (max_iterations : Nat := 10) (tol : ℚ := 1e-6) : Except PyErr (Dict ℚ) :=
  match sector_data with
  | .nonDict => .error .attributeError
  | .dict d => apply_rules d sector_changes rules_map max_iterations tol

/-- simulation._normalize_changes (lines 14-31): per entry, `float(v)` with
fallback 0.0, then divide by 100 exactly when `abs(num) > 1`. -/
def normalizeVal (v : PyVal) : ℚ :=
  let num := pyFloatD v 0
  if 1 < pyAbs num then num / 100 else num

def normalize_changes (changes : Dict PyVal) : Dict ℚ :=
  changes.foldl (fun acc p => Dict.set acc p.1 (normalizeVal p.2)) []

/-- View a float dict again as Python values (the normalized change map the
facade hands to the engine). -/
def toPyDict (d : Dict ℚ) : Dict PyVal :=
  d.map (fun p => (p.1, PyVal.num p.2))

/-- simulation.run_simulation (lines 34-53): isinstance guard raising
ValueError on a non-mapping `sector_data`, then normalization, then
apply_rules with the caller's `rules_map` passed through. -/
def run_simulation (sector_data : PyArg) (sector_changes : Dict PyVal)
    (rules_map : Option (Dict (Dict ℚ)) := none) : Except PyErr (Dict ℚ) :=
  match sector_data with
  | .nonDict => .error (.valueError "sector_data must be a dict mapping sector->value")
  | .dict d =>
    let normalized := normalize_changes sector_changes
    apply_rules d (toPyDict normalized) rules_map 10 1e-6

/-! ### Auxiliary notions used by the theorems -/

/-- Whether a call completed normally (no exception escaped). -/
def isOk {α : Type} : Except PyErr α → Bool
  | .ok _ => true
  | .error _ => false

/-- Whether a call raised the facade's invalid-argument error (the explicit
`ValueError` of run_simulation line 47). -/
def isInvalidArg {α : Type} : Except PyErr α → Bool
  | .error (.valueError _) => true
  | _ => false

/-- Whether every value of a dict is convertible by `float()`. -/
def isNumeric (d : Dict PyVal) : Bool :=
  d.all (fun p => match p.2 with | .num _ => true | .nonNum => false)

/-- The float view of an all-numeric dict (what line 60 produces on it). -/
def toFloats (d : Dict PyVal) : Dict ℚ :=
  d.map (fun p => (p.1, pyFloatD p.2 0))

/-- The damping factor the spec assigns to cascade round `k` (0-indexed):
0.8 at the first round, multiplied by 0.9 after every round. -/
def dampingAt (k : Nat) : ℚ :=
  0.8 * 0.9 ^ k

/-- Spec-side description of one frontier entry's contribution to target `b`:
the sum of `delta * c * damping` over the outgoing edges of `a` that point at
`b`, keeping only effects of magnitude at least `tol`. -/
def specEdgeSum (tol damping amt : ℚ) (outs : Dict ℚ) (b : String) : ℚ :=
  ((outs.filter (fun e => e.1 == b && decide (tol ≤ |amt * e.2 * damping|))).map
    (fun e => amt * e.2 * damping)).sum

/-- Spec-side description of the total effect a cascade round adds to target
`b`: summed over the frontier entries `(a, delta)` with `|delta| ≥ tol`, the
kept effects along edges `a → b`. -/
def specRoundSum (rules_map : Dict (Dict ℚ)) (tol damping : ℚ)
    (current_delta : Dict ℚ) (b : String) : ℚ :=
  ((current_delta.filter (fun p => decide (tol ≤ |p.2|))).map
    (fun p => specEdgeSum tol damping p.2 (Dict.getD rules_map p.1 []) b)).sum

/-- The cascade loop written the way the spec indexes it: round `k` uses
damping `dampingAt k` (instead of the code's running `damping_factor`
accumulator). -/
def specLoop (rules_map : Dict (Dict ℚ)) (tol : ℚ) :
    Nat → Nat → Dict ℚ → Dict ℚ → Dict ℚ
  | 0, _, _, updated => updated
  | fuel + 1, k, current_delta, updated =>
    if current_delta = [] then updated
    else
      match propagateRound rules_map tol (dampingAt k) current_delta updated with
      | (updated', next_delta, max_change) =>
        if max_change ≤ tol then updated'
        else specLoop rules_map tol fuel (k + 1) next_delta updated'

/-- The loop `propagateLoop` instrumented with the number of cascade rounds whose body
was executed (a round counts when the frontier is non-empty). -/
def propagateLoopCount (rules_map : Dict (Dict ℚ)) (tol : ℚ) :
    Nat → ℚ → Dict ℚ → Dict ℚ → Dict ℚ × Nat
  | 0, _, _, updated => (updated, 0)
  | fuel + 1, damping, current_delta, updated =>
    if current_delta = [] then (updated, 0)
    else
      match propagateRound rules_map tol damping current_delta updated with
      | (updated', next_delta, max_change) =>
        if max_change ≤ tol then (updated', 1)
        else
          match propagateLoopCount rules_map tol fuel (damping * 0.9) next_delta updated' with
          | (r, c) => (r, c + 1)

/-- The caller-owned argument objects of one engine invocation.  Python
passes the two dicts by reference; mutating them inside the callee would be
observable by the caller afterwards. -/
structure ArgState where
  sector_data : PyArg
  sector_changes : Dict PyVal
deriving DecidableEq

/-- apply_rules with the caller's argument objects threaded explicitly.
Every Python statement of the body that writes into a dict writes into
`updated` (created fresh by the dict comprehension at line 60),
`direct_delta` (fresh literal `{}` at line 73), `current_delta` (a fresh
`dict(...)` copy at line 88) or `next_delta` (fresh literal `{}` at line 94);
no statement assigns into the parameter objects, so the argument state passes
through unchanged. -/
def applyRulesTracked (st : ArgState) (rules_map : Option (Dict (Dict ℚ)))
    (max_iterations : Nat) (tol : ℚ) : Except PyErr (Dict ℚ) × ArgState :=
  match st.sector_data with
  | .nonDict => (.error .attributeError, st)
  | .dict d =>
    let rmap := rules_map.getD rules
    match copyFloat d with
    | .error e => (.error e, st)
    | .ok upd₀ =>
      let upd₁ := ensureAll upd₀ st.sector_changes rmap
      match applyDirect st.sector_changes upd₁ with
      | (direct_delta, upd₂) =>
        let current_delta := direct_delta
        (.ok (propagateLoop rmap tol max_iterations 0.8 current_delta upd₂), st)

/-- run_simulation with the caller's argument objects threaded explicitly.
The facade only reads its arguments: the isinstance test, `_normalize_changes`
(which builds a fresh `normalized` dict) and the call to apply_rules. -/
def runSimulationTracked (st : ArgState) (rules_map : Option (Dict (Dict ℚ))) :
    Except PyErr (Dict ℚ) × ArgState :=
  match st.sector_data with
  | .nonDict => (.error (.valueError "sector_data must be a dict mapping sector->value"), st)
  | .dict _ =>
    let normalized := normalize_changes st.sector_changes
    match applyRulesTracked ⟨st.sector_data, toPyDict normalized⟩ rules_map 10 1e-6 with
    | (res, st') => (res, ⟨st'.sector_data, st.sector_changes⟩)

/-! ### Dictionary lemmas -/

theorem Dict.get?_set_self {α : Type} (d : Dict α) (k : String) (v : α) :
    Dict.get? (Dict.set d k v) k = some v := by
  induction d with
  | nil => simp [Dict.set, Dict.get?]
  | cons p rest ih =>
    by_cases h : p.1 = k
    · simp [Dict.set, Dict.get?, h]
    · simp [Dict.set, Dict.get?, h, ih]

theorem Dict.get?_set_ne {α : Type} (d : Dict α) (k a : String) (v : α)
    (h : k ≠ a) : Dict.get? (Dict.set d k v) a = Dict.get? d a := by
  induction d with
  | nil => simp [Dict.set, Dict.get?, h]
  | cons p rest ih =>
    by_cases hp : p.1 = k
    · have hpa : p.1 ≠ a := hp ▸ h
      simp [Dict.set, Dict.get?, hp, hpa, h]
    · simp [Dict.set, Dict.get?, hp, ih]

theorem Dict.getD_set_self {α : Type} (d : Dict α) (k : String) (v v₀ : α) :
    Dict.getD (Dict.set d k v) k v₀ = v := by
  simp [Dict.getD, Dict.get?_set_self]

theorem Dict.getD_set_ne {α : Type} (d : Dict α) (k a : String) (v v₀ : α)
    (h : k ≠ a) : Dict.getD (Dict.set d k v) a v₀ = Dict.getD d a v₀ := by
  simp [Dict.getD, Dict.get?_set_ne _ _ _ _ h]

theorem Dict.get?_append {α : Type} (d d' : Dict α) (a : String) :
    Dict.get? (d ++ d') a =
      match Dict.get? d a with
      | some v => some v
      | none => Dict.get? d' a := by
  induction d with
  | nil => simp [Dict.get?]
  | cons p rest ih =>
    by_cases h : p.1 = a
    · simp [Dict.get?, h]
    · simp [Dict.get?, h, ih]

theorem Dict.keys_cons {α : Type} (p : String × α) (rest : Dict α) :
    Dict.keys (p :: rest) = p.1 :: Dict.keys rest := rfl

theorem Dict.keys_append {α : Type} (d d' : Dict α) :
    Dict.keys (d ++ d') = Dict.keys d ++ Dict.keys d' := by
  simp [Dict.keys]

theorem Dict.mem_keys_iff_get? {α : Type} (d : Dict α) (a : String) :
    a ∈ Dict.keys d ↔ (Dict.get? d a).isSome := by
  induction d with
  | nil => simp [Dict.keys, Dict.get?]
  | cons p rest ih =>
    rw [Dict.keys_cons]
    by_cases h : p.1 = a
    · simp [Dict.get?, h]
    · simp only [Dict.get?, h, if_neg, List.mem_cons, Bool.false_eq_true]
      constructor
      · intro hmem
        rcases hmem with h1 | h2
        · exact absurd h1.symm h
        · exact ih.1 h2
      · intro hs
        exact Or.inr (ih.2 hs)

theorem Dict.get?_eq_none_of_not_mem {α : Type} {d : Dict α} {a : String}
    (h : a ∉ Dict.keys d) : Dict.get? d a = none := by
  rcases ho : Dict.get? d a with _ | v
  · rfl
  · exact absurd ((Dict.mem_keys_iff_get? d a).2 (by simp [ho])) h

theorem Dict.set_eq_append_of_not_mem {α : Type} {d : Dict α} {k : String}
    (h : k ∉ Dict.keys d) (v : α) : Dict.set d k v = d ++ [(k, v)] := by
  induction d with
  | nil => simp [Dict.set]
  | cons p rest ih =>
    rw [Dict.keys_cons] at h
    simp only [List.mem_cons] at h
    push_neg at h
    have hp : ¬ p.1 = k := fun hh => h.1 hh.symm
    simp [Dict.set, hp, ih h.2]

theorem Dict.set_keys_preserved {α : Type} {d : Dict α} {k : String}
    (h : k ∈ Dict.keys d) (v : α) :
    Dict.keys (Dict.set d k v) = Dict.keys d := by
  induction d with
  | nil => simp [Dict.keys] at h
  | cons p rest ih =>
    by_cases hp : p.1 = k
    · simp [Dict.set, hp, Dict.keys]
    · rw [Dict.keys_cons] at h
      rcases List.mem_cons.1 h with h1 | h2
      · exact absurd h1.symm hp
      · have : Dict.set (p :: rest) k v = p :: Dict.set rest k v := by
          simp [Dict.set, hp]
        rw [this, Dict.keys_cons, Dict.keys_cons, ih h2]

theorem Dict.mem_keys_set {α : Type} (d : Dict α) (k a : String) (v : α) :
    a ∈ Dict.keys (Dict.set d k v) ↔ a ∈ Dict.keys d ∨ a = k := by
  by_cases hk : k ∈ Dict.keys d
  · rw [Dict.set_keys_preserved hk]
    constructor
    · exact Or.inl
    · intro h
      rcases h with h | h
      · exact h
      · exact h ▸ hk
  · rw [Dict.set_eq_append_of_not_mem hk, Dict.keys_append]
    simp [Dict.keys]

theorem Dict.get?_setdefault {α : Type} (d : Dict α) (k a : String) (v₀ : α) :
    Dict.get? (Dict.setdefault d k v₀) a =
      match Dict.get? d a with
      | some v => some v
      | none => if a = k then some v₀ else none := by
  unfold Dict.setdefault
  rcases hk : Dict.get? d k with _ | v
  · rw [Dict.get?_append]
    rcases ha : Dict.get? d a with _ | w
    · by_cases hak : a = k
      · simp [Dict.get?, hak]
      · have hka : ¬ k = a := fun hh => hak hh.symm
        simp [Dict.get?, hak, hka]
    · simp
  · rcases ha : Dict.get? d a with _ | w
    · by_cases hak : a = k
      · subst hak
        rw [ha] at hk
        exact absurd hk (by simp)
      · simp [hak]
    · simp


theorem Dict.mem_keys_setdefault {α : Type} (d : Dict α) (k a : String) (v₀ : α) :
    a ∈ Dict.keys (Dict.setdefault d k v₀) ↔ a ∈ Dict.keys d ∨ a = k := by
  simp only [Dict.mem_keys_iff_get?, Dict.get?_setdefault]
  rcases ha : Dict.get? d a with _ | v
  · by_cases hak : a = k <;> simp [hak]
  · simp

theorem Dict.get?_toFloats {d : Dict PyVal} {s : String} {v : ℚ}
    (h : Dict.get? d s = some (PyVal.num v)) :
    Dict.get? (toFloats d) s = some v := by
  induction d with
  | nil => simp [Dict.get?] at h
  | cons p rest ih =>
    by_cases hp : p.1 = s
    · simp only [Dict.get?, hp, if_pos, Option.some.injEq] at h
      simp [toFloats, Dict.get?, hp, h, pyFloatD]
    · simp only [Dict.get?, hp, if_neg, Bool.false_eq_true] at h
      simpa [toFloats, Dict.get?, hp] using ih h

theorem Dict.keys_toFloats (d : Dict PyVal) :
    Dict.keys (toFloats d) = Dict.keys d := by
  simp [toFloats, Dict.keys]

/-! ### Phase lemmas -/

theorem isNumeric_cons (p : String × PyVal) (rest : Dict PyVal) :
    isNumeric (p :: rest) =
      ((match p.2 with | .num _ => true | .nonNum => false) && isNumeric rest) := rfl

theorem copyFloat_eq (d : Dict PyVal) :
    copyFloat d =
      if isNumeric d then .ok (toFloats d) else .error .floatConvError := by
  induction d with
  | nil => simp [copyFloat, isNumeric, toFloats]
  | cons p rest ih =>
    rcases p with ⟨s, v⟩
    cases v with
    | nonNum => simp [copyFloat, pyFloat, isNumeric]
    | num q =>
      have hu : copyFloat ((s, PyVal.num q) :: rest) =
          match copyFloat rest with
          | .error e => .error e
          | .ok r => .ok ((s, q) :: r) := by
        simp [copyFloat, pyFloat]
      rw [hu, ih]
      cases hn : isNumeric rest
      · simp [isNumeric_cons, hn]
      · simp [isNumeric_cons, hn, toFloats, pyFloatD]

theorem pyAbs_eq_abs (x : ℚ) : pyAbs x = |x| := by
  unfold pyAbs
  rcases lt_or_ge x 0 with h | h
  · simp [h, abs_of_neg h]
  · simp [not_lt.2 h, abs_of_nonneg h]

theorem foldl_setdefault_get?_isSome (l : List String) (d : Dict ℚ) (s : String)
    (h : (Dict.get? d s).isSome) :
    Dict.get? (l.foldl (fun u k => Dict.setdefault u k 0) d) s = Dict.get? d s := by
  induction l generalizing d with
  | nil => simp
  | cons k rest ih =>
    rcases hs : Dict.get? d s with _ | v
    · rw [hs] at h; simp at h
    · have h1 : Dict.get? (Dict.setdefault d k 0) s = Dict.get? d s := by
        rw [Dict.get?_setdefault, hs]
      simp only [List.foldl_cons]
      rw [ih (Dict.setdefault d k 0) (by simp [h1, hs]), h1]
      exact hs

theorem foldl_setdefault_get?_none (l : List String) (d : Dict ℚ) (s : String)
    (h : Dict.get? d s = none) (hmem : s ∈ l) :
    Dict.get? (l.foldl (fun u k => Dict.setdefault u k 0) d) s = some 0 := by
  induction l generalizing d with
  | nil => simp at hmem
  | cons k rest ih =>
    simp only [List.foldl_cons]
    by_cases hk : s = k
    · subst hk
      have h1 : Dict.get? (Dict.setdefault d s 0) s = some 0 := by
        rw [Dict.get?_setdefault, h]; simp
      rw [foldl_setdefault_get?_isSome rest _ s (by simp [h1]), h1]
    · rcases List.mem_cons.1 hmem with h1 | h2
      · exact absurd h1 hk
      · have h1 : Dict.get? (Dict.setdefault d k 0) s = none := by
          rw [Dict.get?_setdefault, h]; simp [hk]
        exact ih _ h1 h2

theorem mem_keys_foldl_setdefault (l : List String) (d : Dict ℚ) (a : String) :
    a ∈ Dict.keys (l.foldl (fun u k => Dict.setdefault u k 0) d) ↔
      a ∈ Dict.keys d ∨ a ∈ l := by
  induction l generalizing d with
  | nil => simp
  | cons k rest ih =>
    simp only [List.foldl_cons, List.mem_cons]
    rw [ih, Dict.mem_keys_setdefault]
    tauto

theorem ensureAll_get?_isSome {d : Dict ℚ} {s : String}
    (h : (Dict.get? d s).isSome) (sc : Dict PyVal) (rm : Dict (Dict ℚ)) :
    Dict.get? (ensureAll d sc rm) s = Dict.get? d s :=
  foldl_setdefault_get?_isSome _ d s h

theorem mem_keys_ensureAll (d : Dict ℚ) (sc : Dict PyVal) (rm : Dict (Dict ℚ))
    (a : String) :
    a ∈ Dict.keys (ensureAll d sc rm) ↔
      a ∈ Dict.keys d ∨ a ∈ Dict.keys sc ∨ a ∈ rulesNodes rm := by
  unfold ensureAll
  rw [mem_keys_foldl_setdefault]
  simp [List.mem_append]

theorem foldl_directStep_get?_not_mem (l : Dict PyVal) (st : Dict ℚ × Dict ℚ)
    (s : String) (h : s ∉ Dict.keys l) :
    Dict.get? (l.foldl directStep st).2 s = Dict.get? st.2 s := by
  induction l generalizing st with
  | nil => simp
  | cons p rest ih =>
    rw [Dict.keys_cons] at h
    simp only [List.mem_cons] at h
    push_neg at h
    simp only [List.foldl_cons]
    rw [ih _ h.2]
    exact Dict.get?_set_ne _ _ _ _ (fun hh => h.1 hh.symm)

theorem mem_keys_foldl_directStep (l : Dict PyVal) (st : Dict ℚ × Dict ℚ)
    (a : String) :
    a ∈ Dict.keys (l.foldl directStep st).2 ↔
      a ∈ Dict.keys st.2 ∨ a ∈ Dict.keys l := by
  induction l generalizing st with
  | nil => simp [Dict.keys]
  | cons p rest ih =>
    simp only [List.foldl_cons, Dict.keys_cons, List.mem_cons]
    rw [ih]
    unfold directStep
    simp only []
    rw [Dict.mem_keys_set]
    tauto

theorem targetsOf_spec {rm : Dict (Dict ℚ)} {a b : String}
    (h : b ∈ Dict.keys (Dict.getD rm a [])) : b ∈ targetsOf rm := by
  induction rm with
  | nil => simp [Dict.getD, Dict.get?, Dict.keys] at h
  | cons p rest ih =>
    unfold targetsOf
    simp only [List.foldr_cons, List.mem_append]
    by_cases hp : p.1 = a
    · left
      simpa [Dict.getD, Dict.get?, hp] using h
    · right
      have : Dict.getD rest a [] = Dict.getD (p :: rest) a [] := by
        simp [Dict.getD, Dict.get?, hp]
      exact ih (this ▸ h)

theorem targetsOf_subset_rulesNodes {rm : Dict (Dict ℚ)} {b : String}
    (h : b ∈ targetsOf rm) : b ∈ rulesNodes rm := by
  induction rm with
  | nil => simp [targetsOf] at h
  | cons p rest ih =>
    unfold targetsOf at h
    unfold rulesNodes
    simp only [List.foldr_cons, List.mem_append, List.mem_cons] at h ⊢
    tauto

/-! ### Cascade lemmas -/

theorem specEdgeSum_cons (tol damping amt : ℚ) (e : String × ℚ) (outs : Dict ℚ)
    (b : String) :
    specEdgeSum tol damping amt (e :: outs) b =
      (if e.1 = b ∧ tol ≤ |amt * e.2 * damping| then amt * e.2 * damping else 0) +
        specEdgeSum tol damping amt outs b := by
  unfold specEdgeSum
  rw [List.filter_cons]
  by_cases h1 : e.1 = b
  · by_cases h2 : tol ≤ |amt * e.2 * damping|
    · simp [h1, h2]
    · simp [h1, h2]
  · simp [h1]

theorem propagateEdges_getD (tol damping amt : ℚ) (outs : Dict ℚ)
    (st : Dict ℚ × Dict ℚ × ℚ) (b : String) :
    (propagateEdges tol damping amt outs st).2.1.getD b 0 =
        st.2.1.getD b 0 + specEdgeSum tol damping amt outs b ∧
      (propagateEdges tol damping amt outs st).1.getD b 0 =
        st.1.getD b 0 + specEdgeSum tol damping amt outs b := by
  induction outs generalizing st with
  | nil => simp [propagateEdges, specEdgeSum]
  | cons e rest ih =>
    have hfold : propagateEdges tol damping amt (e :: rest) st =
        propagateEdges tol damping amt rest (edgeStep tol damping amt st e) := by
      simp [propagateEdges]
    rw [hfold, specEdgeSum_cons]
    by_cases hk : pyAbs (amt * e.2 * damping) < tol
    · have hcond : ¬ (e.1 = b ∧ tol ≤ |amt * e.2 * damping|) := by
        rintro ⟨-, h2⟩
        rw [pyAbs_eq_abs] at hk
        exact absurd h2 (not_le.2 hk)
      have hstep : edgeStep tol damping amt st e = st := by
        simp [edgeStep, hk]
      rw [hstep, if_neg hcond, zero_add]
      exact ih st
    · have hle : tol ≤ |amt * e.2 * damping| := by
        rw [pyAbs_eq_abs] at hk
        exact not_lt.1 hk
      have hstep : edgeStep tol damping amt st e =
          (Dict.set st.1 e.1 (Dict.getD st.1 e.1 0 + amt * e.2 * damping),
           Dict.set st.2.1 e.1 (Dict.getD st.2.1 e.1 0 + amt * e.2 * damping),
           max st.2.2 (pyAbs (amt * e.2 * damping))) := by
        simp [edgeStep, hk]
      rw [hstep]
      rcases ih (Dict.set st.1 e.1 (Dict.getD st.1 e.1 0 + amt * e.2 * damping),
        Dict.set st.2.1 e.1 (Dict.getD st.2.1 e.1 0 + amt * e.2 * damping),
        max st.2.2 (pyAbs (amt * e.2 * damping))) with ⟨ihn, ihu⟩
      by_cases hb : e.1 = b
      · subst hb
        rw [ihn, ihu, Dict.getD_set_self, Dict.getD_set_self,
          if_pos ⟨rfl, hle⟩]
        constructor <;> ring
      · rw [ihn, ihu, Dict.getD_set_ne _ _ _ _ _ hb, Dict.getD_set_ne _ _ _ _ _ hb,
          if_neg (fun hc => hb hc.1), zero_add]
        exact ⟨rfl, rfl⟩

theorem specRoundSum_cons (rm : Dict (Dict ℚ)) (tol damping : ℚ)
    (p : String × ℚ) (cur : Dict ℚ) (b : String) :
    specRoundSum rm tol damping (p :: cur) b =
      (if tol ≤ |p.2| then specEdgeSum tol damping p.2 (Dict.getD rm p.1 []) b else 0) +
        specRoundSum rm tol damping cur b := by
  unfold specRoundSum
  rw [List.filter_cons]
  by_cases h : tol ≤ |p.2|
  · simp [h]
  · simp [h]

theorem foldl_roundStep_getD (rm : Dict (Dict ℚ)) (tol damping : ℚ)
    (cur : Dict ℚ) (st : Dict ℚ × Dict ℚ × ℚ) (b : String) :
    (cur.foldl (roundStep rm tol damping) st).2.1.getD b 0 =
        st.2.1.getD b 0 + specRoundSum rm tol damping cur b ∧
      (cur.foldl (roundStep rm tol damping) st).1.getD b 0 =
        st.1.getD b 0 + specRoundSum rm tol damping cur b := by
  induction cur generalizing st with
  | nil => simp [specRoundSum]
  | cons p rest ih =>
    simp only [List.foldl_cons]
    rw [specRoundSum_cons]
    by_cases hk : pyAbs p.2 < tol
    · have hcond : ¬ tol ≤ |p.2| := by
        rw [pyAbs_eq_abs] at hk
        exact not_le.2 hk
      have hstep : roundStep rm tol damping st p = st := by
        simp [roundStep, hk]
      rw [hstep, if_neg hcond, zero_add]
      exact ih st
    · have hle : tol ≤ |p.2| := by
        rw [pyAbs_eq_abs] at hk
        exact not_lt.1 hk
      have hstep : roundStep rm tol damping st p =
          propagateEdges tol damping p.2 (Dict.getD rm p.1 []) st := by
        simp [roundStep, hk]
      rw [hstep, if_pos hle]
      rcases ih (propagateEdges tol damping p.2 (Dict.getD rm p.1 []) st) with ⟨ihn, ihu⟩
      rcases propagateEdges_getD tol damping p.2 (Dict.getD rm p.1 []) st b with ⟨hen, heu⟩
      rw [ihn, ihu, hen, heu]
      constructor <;> ring

theorem propagateRound_next_getD (rm : Dict (Dict ℚ)) (tol damping : ℚ)
    (cur upd : Dict ℚ) (b : String) :
    (propagateRound rm tol damping cur upd).2.1.getD b 0 =
      specRoundSum rm tol damping cur b := by
  have h := (foldl_roundStep_getD rm tol damping cur (upd, [], 0) b).1
  unfold propagateRound
  rw [h]
  simp [Dict.getD, Dict.get?]

theorem propagateRound_upd_getD (rm : Dict (Dict ℚ)) (tol damping : ℚ)
    (cur upd : Dict ℚ) (b : String) :
    (propagateRound rm tol damping cur upd).1.getD b 0 =
      upd.getD b 0 + specRoundSum rm tol damping cur b :=
  (foldl_roundStep_getD rm tol damping cur (upd, [], 0) b).2

theorem propagateEdges_get?_not_mem {tol damping amt : ℚ} {outs : Dict ℚ}
    {s : String} (h : s ∉ Dict.keys outs) (st : Dict ℚ × Dict ℚ × ℚ) :
    (propagateEdges tol damping amt outs st).1.get? s = st.1.get? s ∧
      (propagateEdges tol damping amt outs st).2.1.get? s = st.2.1.get? s := by
  induction outs generalizing st with
  | nil => exact ⟨rfl, rfl⟩
  | cons e rest ih =>
    rw [Dict.keys_cons] at h
    simp only [List.mem_cons] at h
    push_neg at h
    have hfold : propagateEdges tol damping amt (e :: rest) st =
        propagateEdges tol damping amt rest (edgeStep tol damping amt st e) := by
      simp [propagateEdges]
    rw [hfold]
    rcases ih h.2 (edgeStep tol damping amt st e) with ⟨h1, h2⟩
    rw [h1, h2]
    unfold edgeStep
    by_cases hk : pyAbs (amt * e.2 * damping) < tol
    · simp [hk]
    · simp only [hk, if_neg, if_false]
      constructor <;>
        exact Dict.get?_set_ne _ _ _ _ (fun hh => h.1 hh.symm)

theorem foldl_roundStep_get?_not_target {rm : Dict (Dict ℚ)} (tol damping : ℚ)
    {s : String} (h : s ∉ targetsOf rm) (cur : Dict ℚ)
    (st : Dict ℚ × Dict ℚ × ℚ) :
    (cur.foldl (roundStep rm tol damping) st).1.get? s = st.1.get? s ∧
      (cur.foldl (roundStep rm tol damping) st).2.1.get? s = st.2.1.get? s := by
  induction cur generalizing st with
  | nil => exact ⟨rfl, rfl⟩
  | cons p rest ih =>
    simp only [List.foldl_cons]
    rcases ih (roundStep rm tol damping st p) with ⟨h1, h2⟩
    rw [h1, h2]
    unfold roundStep
    by_cases hk : pyAbs p.2 < tol
    · simp [hk]
    · simp only [hk, if_neg, if_false]
      have hs : s ∉ Dict.keys (Dict.getD rm p.1 []) := fun hmem => h (targetsOf_spec hmem)
      exact propagateEdges_get?_not_mem hs st

theorem propagateLoop_get?_not_target {rm : Dict (Dict ℚ)} {tol : ℚ} {s : String}
    (h : s ∉ targetsOf rm) :
    ∀ (fuel : Nat) (damping : ℚ) (cur upd : Dict ℚ),
      (propagateLoop rm tol fuel damping cur upd).get? s = upd.get? s := by
  intro fuel
  induction fuel with
  | zero => intro damping cur upd; rfl
  | succ n ih =>
    intro damping cur upd
    unfold propagateLoop
    by_cases hc : cur = []
    · simp [hc]
    · simp only [hc, if_neg, if_false]
      have hround := foldl_roundStep_get?_not_target tol damping h cur (upd, [], 0)
      rcases hp : propagateRound rm tol damping cur upd with ⟨upd', next, mc⟩
      unfold propagateRound at hp
      by_cases hmc : mc ≤ tol
      · simp only [hmc, if_pos]
        rw [← show (cur.foldl (roundStep rm tol damping) (upd, [], 0)).1 = upd' by rw [hp]]
        exact hround.1
      · simp only [hmc, if_neg, if_false]
        rw [ih _ next upd']
        rw [← show (cur.foldl (roundStep rm tol damping) (upd, [], 0)).1 = upd' by rw [hp]]
        exact hround.1

theorem propagateLoop_nil (rm : Dict (Dict ℚ)) (tol : ℚ) (fuel : Nat)
    (damping : ℚ) (upd : Dict ℚ) :
    propagateLoop rm tol fuel damping [] upd = upd := by
  cases fuel with
  | zero => rfl
  | succ n => simp [propagateLoop]

theorem propagateEdges_keys_incl (tol damping amt : ℚ) (outs : Dict ℚ)
    (st : Dict ℚ × Dict ℚ × ℚ) (a : String) :
    (a ∈ Dict.keys st.1 → a ∈ Dict.keys (propagateEdges tol damping amt outs st).1) ∧
      (a ∈ Dict.keys (propagateEdges tol damping amt outs st).1 →
        a ∈ Dict.keys st.1 ∨ a ∈ Dict.keys outs) := by
  induction outs generalizing st with
  | nil => exact ⟨fun h => h, fun h => Or.inl h⟩
  | cons e rest ih =>
    have hfold : propagateEdges tol damping amt (e :: rest) st =
        propagateEdges tol damping amt rest (edgeStep tol damping amt st e) := by
      simp [propagateEdges]
    rw [hfold, Dict.keys_cons]
    rcases ih (edgeStep tol damping amt st e) with ⟨ih1, ih2⟩
    have hstep : (a ∈ Dict.keys st.1 → a ∈ Dict.keys (edgeStep tol damping amt st e).1) ∧
        (a ∈ Dict.keys (edgeStep tol damping amt st e).1 →
          a ∈ Dict.keys st.1 ∨ a = e.1) := by
      unfold edgeStep
      by_cases hk : pyAbs (amt * e.2 * damping) < tol
      · simp only [hk, if_pos]
        exact ⟨fun h => h, fun h => Or.inl h⟩
      · simp only [hk, if_neg, if_false]
        constructor
        · intro h
          exact (Dict.mem_keys_set _ _ _ _).2 (Or.inl h)
        · intro h
          exact (Dict.mem_keys_set _ _ _ _).1 h
    refine ⟨fun h => ih1 (hstep.1 h), fun h => ?_⟩
    rcases ih2 h with h' | h'
    · rcases hstep.2 h' with h'' | h''
      · exact Or.inl h''
      · exact Or.inr (List.mem_cons.2 (Or.inl h''))
    · exact Or.inr (List.mem_cons.2 (Or.inr h'))

theorem foldl_roundStep_keys_incl (rm : Dict (Dict ℚ)) (tol damping : ℚ)
    (cur : Dict ℚ) (st : Dict ℚ × Dict ℚ × ℚ) (a : String) :
    (a ∈ Dict.keys st.1 → a ∈ Dict.keys (cur.foldl (roundStep rm tol damping) st).1) ∧
      (a ∈ Dict.keys (cur.foldl (roundStep rm tol damping) st).1 →
        a ∈ Dict.keys st.1 ∨ a ∈ targetsOf rm) := by
  induction cur generalizing st with
  | nil => exact ⟨fun h => h, fun h => Or.inl h⟩
  | cons p rest ih =>
    simp only [List.foldl_cons]
    rcases ih (roundStep rm tol damping st p) with ⟨ih1, ih2⟩
    have hstep : (a ∈ Dict.keys st.1 → a ∈ Dict.keys (roundStep rm tol damping st p).1) ∧
        (a ∈ Dict.keys (roundStep rm tol damping st p).1 →
          a ∈ Dict.keys st.1 ∨ a ∈ targetsOf rm) := by
      unfold roundStep
      by_cases hk : pyAbs p.2 < tol
      · simp only [hk, if_pos]
        exact ⟨fun h => h, fun h => Or.inl h⟩
      · simp only [hk, if_neg, if_false]
        rcases propagateEdges_keys_incl tol damping p.2 (Dict.getD rm p.1 []) st a with ⟨he1, he2⟩
        refine ⟨he1, fun h => ?_⟩
        rcases he2 h with h' | h'
        · exact Or.inl h'
        · exact Or.inr (targetsOf_spec h')
    exact ⟨fun h => ih1 (hstep.1 h),
      fun h => (ih2 h).elim (fun h' => hstep.2 h') Or.inr⟩

theorem propagateLoop_keys_incl (rm : Dict (Dict ℚ)) (tol : ℚ) (a : String) :
    ∀ (fuel : Nat) (damping : ℚ) (cur upd : Dict ℚ),
      (a ∈ Dict.keys upd → a ∈ Dict.keys (propagateLoop rm tol fuel damping cur upd)) ∧
        (a ∈ Dict.keys (propagateLoop rm tol fuel damping cur upd) →
          a ∈ Dict.keys upd ∨ a ∈ targetsOf rm) := by
  intro fuel
  induction fuel with
  | zero => exact fun damping cur upd => ⟨fun h => h, fun h => Or.inl h⟩
  | succ n ih =>
    intro damping cur upd
    unfold propagateLoop
    by_cases hc : cur = []
    · simp only [hc, if_pos]
      exact ⟨fun h => h, fun h => Or.inl h⟩
    · simp only [hc, if_neg, if_false]
      rcases hp : propagateRound rm tol damping cur upd with ⟨upd', next, mc⟩
      have hkeys := foldl_roundStep_keys_incl rm tol damping cur (upd, [], 0) a
      rw [show (cur.foldl (roundStep rm tol damping) (upd, [], 0)) =
        (upd', next, mc) from hp ▸ rfl] at hkeys
      by_cases hmc : mc ≤ tol
      · simp only [hmc, if_pos]
        exact hkeys
      · simp only [hmc, if_neg, if_false]
        rcases ih (damping * 0.9) next upd' with ⟨ih1, ih2⟩
        refine ⟨fun h => ih1 (hkeys.1 h), fun h => ?_⟩
        rcases ih2 h with h' | h'
        · exact hkeys.2 h'
        · exact Or.inr h'

theorem dampingAt_succ (k : Nat) : dampingAt k * 0.9 = dampingAt (k + 1) := by
  unfold dampingAt
  rw [pow_succ]
  ring

theorem propagateLoop_eq_specLoop (rm : Dict (Dict ℚ)) (tol : ℚ) :
    ∀ (fuel k : Nat) (cur upd : Dict ℚ),
      propagateLoop rm tol fuel (dampingAt k) cur upd =
        specLoop rm tol fuel k cur upd := by
  intro fuel
  induction fuel with
  | zero => intro k cur upd; rfl
  | succ n ih =>
    intro k cur upd
    unfold propagateLoop specLoop
    by_cases hc : cur = []
    · simp [hc]
    · simp only [hc, if_neg, if_false]
      rcases hp : propagateRound rm tol (dampingAt k) cur upd with ⟨upd', next, mc⟩
      by_cases hmc : mc ≤ tol
      · simp [hmc]
      · simp only [hmc, if_neg, if_false]
        rw [dampingAt_succ, ih]

theorem propagateLoopCount_le (rm : Dict (Dict ℚ)) (tol : ℚ) :
    ∀ (fuel : Nat) (damping : ℚ) (cur upd : Dict ℚ),
      (propagateLoopCount rm tol fuel damping cur upd).2 ≤ fuel := by
  intro fuel
  induction fuel with
  | zero => intro damping cur upd; simp [propagateLoopCount]
  | succ n ih =>
    intro damping cur upd
    unfold propagateLoopCount
    by_cases hc : cur = []
    · simp [hc]
    · simp only [hc, if_neg, if_false]
      rcases hp : propagateRound rm tol damping cur upd with ⟨upd', next, mc⟩
      by_cases hmc : mc ≤ tol
      · simp only [hmc, if_pos]
        exact Nat.succ_le_succ (Nat.zero_le n)
      · simp only [hmc, if_neg, if_false]
        rcases hcount : propagateLoopCount rm tol n (damping * 0.9) next upd' with ⟨r, c⟩
        have := ih (damping * 0.9) next upd'
        rw [hcount] at this
        exact Nat.succ_le_succ this

theorem propagateLoopCount_fst (rm : Dict (Dict ℚ)) (tol : ℚ) :
    ∀ (fuel : Nat) (damping : ℚ) (cur upd : Dict ℚ),
      (propagateLoopCount rm tol fuel damping cur upd).1 =
        propagateLoop rm tol fuel damping cur upd := by
  intro fuel
  induction fuel with
  | zero => intro damping cur upd; rfl
  | succ n ih =>
    intro damping cur upd
    unfold propagateLoopCount propagateLoop
    by_cases hc : cur = []
    · simp [hc]
    · simp only [hc, if_neg, if_false]
      rcases hp : propagateRound rm tol damping cur upd with ⟨upd', next, mc⟩
      by_cases hmc : mc ≤ tol
      · simp [hmc]
      · simp only [hmc, if_neg, if_false]
        rcases hcount : propagateLoopCount rm tol n (damping * 0.9) next upd' with ⟨r, c⟩
        have := ih (damping * 0.9) next upd'
        rw [hcount] at this
        exact this

/-! ### apply_rules normal forms -/

theorem apply_rules_ok {sd : Dict PyVal} (h : isNumeric sd = true)
    (sc : Dict PyVal) (rm : Option (Dict (Dict ℚ))) (n : Nat) (t : ℚ) :
    apply_rules sd sc rm n t =
      .ok (propagateLoop (rm.getD rules) t n 0.8
        (applyDirect sc (ensureAll (toFloats sd) sc (rm.getD rules))).1
        (applyDirect sc (ensureAll (toFloats sd) sc (rm.getD rules))).2) := by
  unfold apply_rules
  rw [copyFloat_eq, h]
  simp only [if_pos]

theorem apply_rules_err {sd : Dict PyVal} (h : isNumeric sd = false)
    (sc : Dict PyVal) (rm : Option (Dict (Dict ℚ))) (n : Nat) (t : ℚ) :
    apply_rules sd sc rm n t = .error .floatConvError := by
  unfold apply_rules
  rw [copyFloat_eq, h]
  simp only [Bool.false_eq_true, if_neg, if_false]

theorem apply_rules_isOk (sd sc : Dict PyVal) (rm : Option (Dict (Dict ℚ)))
    (n : Nat) (t : ℚ) :
    isOk (apply_rules sd sc rm n t) = isNumeric sd := by
  cases h : isNumeric sd
  · rw [apply_rules_err h]; rfl
  · rw [apply_rules_ok h]; rfl

theorem apply_rules_error_shape (sd sc : Dict PyVal) (rm : Option (Dict (Dict ℚ)))
    (n : Nat) (t : ℚ) :
    isInvalidArg (apply_rules sd sc rm n t) = false ∧
      apply_rules sd sc rm n t ≠ .error .attributeError := by
  cases h : isNumeric sd
  · rw [apply_rules_err h]
    exact ⟨rfl, by simp⟩
  · rw [apply_rules_ok h]
    exact ⟨rfl, by simp⟩

theorem Dict.get?_mapVal {α β : Type} (f : α → β) (l : Dict α) (s : String) :
    Dict.get? (l.map (fun p => (p.1, f p.2))) s = (Dict.get? l s).map f := by
  induction l with
  | nil => rfl
  | cons p rest ih =>
    by_cases h : p.1 = s
    · simp [Dict.get?, h]
    · simp [Dict.get?, h, ih]

theorem foldl_set_normalize_eq_append (l : Dict PyVal) (acc : Dict ℚ)
    (hnd : (Dict.keys l).Nodup)
    (hdisj : ∀ k ∈ Dict.keys l, Dict.get? acc k = none) :
    l.foldl (fun acc p => Dict.set acc p.1 (normalizeVal p.2)) acc =
      acc ++ l.map (fun p => (p.1, normalizeVal p.2)) := by
  induction l generalizing acc with
  | nil => simp
  | cons p rest ih =>
    rw [Dict.keys_cons] at hnd hdisj
    simp only [List.nodup_cons] at hnd
    simp only [List.foldl_cons, List.map_cons]
    have hnone : Dict.get? acc p.1 = none := hdisj p.1 (List.mem_cons_self _ _)
    have hset : Dict.set acc p.1 (normalizeVal p.2) = acc ++ [(p.1, normalizeVal p.2)] :=
      Dict.set_eq_append_of_not_mem
        (fun hmem => by simp [Dict.mem_keys_iff_get?, hnone] at hmem) _
    rw [hset, ih _ hnd.2 ?_, List.append_assoc]
    · rfl
    · intro k hk
      rw [Dict.get?_append]
      have hkp : ¬ p.1 = k := fun hh => hnd.1 (hh ▸ hk)
      rw [hdisj k (List.mem_cons_of_mem _ hk)]
      simp [Dict.get?, hkp]

theorem normalize_changes_eq_map (changes : Dict PyVal)
    (hnd : (Dict.keys changes).Nodup) :
    normalize_changes changes =
      changes.map (fun p => (p.1, normalizeVal p.2)) := by
  unfold normalize_changes
  rw [foldl_set_normalize_eq_append changes [] hnd (fun k _ => rfl)]
  rfl

theorem normalizeVal_num (v : ℚ) :
    normalizeVal (PyVal.num v) = if 1 < |v| then v / 100 else v := by
  simp only [normalizeVal, pyFloatD]
  rw [pyAbs_eq_abs]

theorem normalizeVal_nonNum : normalizeVal PyVal.nonNum = 0 := by
  unfold normalizeVal pyFloatD pyAbs
  norm_num

theorem foldl_directStep_nonNum (l : Dict PyVal) (st : Dict ℚ × Dict ℚ)
    (s : String) (hnd : (Dict.keys l).Nodup)
    (h : Dict.get? l s = some PyVal.nonNum) :
    Dict.getD (l.foldl directStep st).2 s 0 = Dict.getD st.2 s 0 := by
  induction l generalizing st with
  | nil => simp [Dict.get?] at h
  | cons p rest ih =>
    rw [Dict.keys_cons] at hnd
    simp only [List.nodup_cons] at hnd
    simp only [List.foldl_cons]
    by_cases hp : p.1 = s
    · simp only [Dict.get?, hp, if_pos, Option.some.injEq] at h
      have hrest : s ∉ Dict.keys rest := hp ▸ hnd.1
      have hpres : Dict.get? (rest.foldl directStep (directStep st p)).2 s =
          Dict.get? (directStep st p).2 s :=
        foldl_directStep_get?_not_mem rest _ s hrest
      unfold Dict.getD
      rw [hpres]
      simp only [directStep, h, hp, pyFloatD, mul_zero, add_zero]
      rw [Dict.get?_set_self]
      simp [Dict.getD]
    · simp only [Dict.get?, hp, if_neg, Bool.false_eq_true] at h
      rw [ih _ hnd.2 h]
      unfold directStep
      simp only []
      rw [Dict.getD_set_ne _ _ _ _ _ hp]

theorem applyDirect_get?_not_mem (sc : Dict PyVal) (u : Dict ℚ) (s : String)
    (h : s ∉ Dict.keys sc) :
    (applyDirect sc u).2.get? s = Dict.get? u s :=
  foldl_directStep_get?_not_mem sc ([], u) s h

/-! ### Claim theorems -/

/-- C1: In every cascade round of apply_rules, the next-round frontier entry of
a target `b` is the sum, over frontier entries `(a, delta)` with
`|delta| ≥ tol` and outgoing edges `a → b` with coefficient `c`, of the effects
`delta * c * damping` whose magnitude is at least `tol` (smaller effects are
discarded, and simultaneous effects into the same target are summed); the same
sum is added to `b`'s value; and the damping of round `k` (0-indexed) is
`0.8 * 0.9 ^ k`, i.e. apply_rules is the spec-indexed cascade started at
round 0 with damping 0.8. -/
theorem claim_C1 :
    (∀ (rm : Dict (Dict ℚ)) (tol damping : ℚ) (cur upd : Dict ℚ) (b : String),
      (propagateRound rm tol damping cur upd).2.1.getD b 0 =
          specRoundSum rm tol damping cur b ∧
        (propagateRound rm tol damping cur upd).1.getD b 0 =
          upd.getD b 0 + specRoundSum rm tol damping cur b) ∧
    (∀ (rm : Dict (Dict ℚ)) (tol : ℚ) (fuel k : Nat) (cur upd : Dict ℚ),
      propagateLoop rm tol fuel (dampingAt k) cur upd =
        specLoop rm tol fuel k cur upd) ∧
    (∀ (sd sc : Dict PyVal) (rm : Option (Dict (Dict ℚ))) (n : Nat) (t : ℚ),
      apply_rules sd sc rm n t =
        match copyFloat sd with
        | .error e => .error e
        | .ok u₀ =>
          .ok (specLoop (rm.getD rules) t n 0
            (applyDirect sc (ensureAll u₀ sc (rm.getD rules))).1
            (applyDirect sc (ensureAll u₀ sc (rm.getD rules))).2)) := by
  refine ⟨?_, ?_, ?_⟩
  · intro rm tol damping cur upd b
    exact ⟨propagateRound_next_getD rm tol damping cur upd b,
      propagateRound_upd_getD rm tol damping cur upd b⟩
  · intro rm tol fuel k cur upd
    exact propagateLoop_eq_specLoop rm tol fuel k cur upd
  · intro sd sc rm n t
    unfold apply_rules
    cases h : copyFloat sd with
    | error e => rfl
    | ok u₀ =>
      have h08 : (0.8 : ℚ) = dampingAt 0 := by norm_num [dampingAt]
      cases hd : applyDirect sc (ensureAll u₀ sc (rm.getD rules)) with
      | mk dd u₂ =>
        simp only []
        rw [h08, propagateLoop_eq_specLoop]

/-- C3: normalize (_normalize_changes) maps a numeric change entry `v` to
`v / 100` when `|v| > 1` and keeps it unchanged when `|v| ≤ 1`; the threshold
is strictly greater than 1, so `|v| = 1` is kept as a fraction. -/
theorem claim_C3 (changes : Dict PyVal) (s : String) (v : ℚ)
    (hnd : (Dict.keys changes).Nodup)
    (h : Dict.get? changes s = some (PyVal.num v)) :
    Dict.get? (normalize_changes changes) s =
      some (if 1 < |v| then v / 100 else v) := by
  rw [normalize_changes_eq_map changes hnd, Dict.get?_mapVal, h]
  simp [normalizeVal_num]

/-- C4 (amended): a non-numeric entry in the change map is silently coerced to
0.0 by both the normalizer and the engine's direct-application step, and the
engine completes normally whenever all sector values are numeric; but —
contrary to the original claim — a non-numeric entry in the sector value map
makes the engine's initial copy (line 60, which has no try/except) raise a
float conversion error: apply_rules completes normally iff the value map is
all-numeric. -/
theorem claim_C4_amended :
    (∀ (changes : Dict PyVal) (s : String),
      (Dict.keys changes).Nodup →
      Dict.get? changes s = some PyVal.nonNum →
      Dict.get? (normalize_changes changes) s = some 0) ∧
    (∀ (sc : Dict PyVal) (u : Dict ℚ) (s : String),
      (Dict.keys sc).Nodup →
      Dict.get? sc s = some PyVal.nonNum →
      Dict.getD (applyDirect sc u).2 s 0 = Dict.getD u s 0) ∧
    (∀ (sd sc : Dict PyVal) (rm : Option (Dict (Dict ℚ))) (n : Nat) (t : ℚ),
      isOk (apply_rules sd sc rm n t) = isNumeric sd) := by
  refine ⟨?_, ?_, ?_⟩
  · intro changes s hnd h
    rw [normalize_changes_eq_map changes hnd, Dict.get?_mapVal, h]
    simp [normalizeVal_nonNum]
  · intro sc u s hnd h
    exact foldl_directStep_nonNum sc ([], u) s hnd h
  · exact apply_rules_isOk

/-- C5 (amended): on a non-mapping `values` argument the facade fails fast
with its explicit invalid-argument ValueError before any normalization, while
the engine — contrary to the original claim, which said both raise an
invalid-argument error — has no such guard and fails with an AttributeError
from calling `.items()` on the non-mapping, also before any propagation work;
on mapping-typed values neither failure occurs. -/
theorem claim_C5_amended :
    (∀ (sc : Dict PyVal) (rm : Option (Dict (Dict ℚ))),
      run_simulation .nonDict sc rm =
        .error (.valueError "sector_data must be a dict mapping sector->value")) ∧
    (∀ (sc : Dict PyVal) (rm : Option (Dict (Dict ℚ))) (n : Nat) (t : ℚ),
      applyRulesArg .nonDict sc rm n t = .error .attributeError) ∧
    (∀ (d sc : Dict PyVal) (rm : Option (Dict (Dict ℚ))),
      isInvalidArg (run_simulation (.dict d) sc rm) = false) ∧
    (∀ (d sc : Dict PyVal) (rm : Option (Dict (Dict ℚ))) (n : Nat) (t : ℚ),
      isInvalidArg (applyRulesArg (.dict d) sc rm n t) = false ∧
        applyRulesArg (.dict d) sc rm n t ≠ .error .attributeError) := by
  refine ⟨fun sc rm => rfl, fun sc rm n t => rfl, ?_, ?_⟩
  · intro d sc rm
    exact (apply_rules_error_shape d (toPyDict (normalize_changes sc)) rm 10 (1e-6)).1
  · intro d sc rm n t
    exact apply_rules_error_shape d sc rm n t

/-- C6: the key set of the map apply_rules returns is exactly the union of the
keys of the values map, the keys of the change map, and the source/target
nodes of the effective rules map; a sector of this universe absent from the
values map, not directly changed and not the target of any edge comes out
with value 0.0. -/
theorem claim_C6 (sd sc : Dict PyVal) (rm : Option (Dict (Dict ℚ))) (n : Nat)
    (t : ℚ) (r : Dict ℚ) (a : String)
    (hok : apply_rules sd sc rm n t = .ok r) :
    (a ∈ Dict.keys r ↔
      a ∈ Dict.keys sd ∨ a ∈ Dict.keys sc ∨ a ∈ rulesNodes (rm.getD rules)) ∧
    (a ∉ Dict.keys sd → a ∉ Dict.keys sc → a ∉ targetsOf (rm.getD rules) →
      a ∈ rulesNodes (rm.getD rules) → Dict.get? r a = some 0) := by
  have hnum : isNumeric sd = true := by
    cases h : isNumeric sd
    · rw [apply_rules_err h] at hok
      exact absurd hok (by simp)
    · rfl
  rw [apply_rules_ok hnum] at hok
  have hr : r = propagateLoop (rm.getD rules) t n 0.8
      (applyDirect sc (ensureAll (toFloats sd) sc (rm.getD rules))).1
      (applyDirect sc (ensureAll (toFloats sd) sc (rm.getD rules))).2 :=
    (Except.ok.inj hok).symm
  have hu₁ : ∀ x, x ∈ Dict.keys (ensureAll (toFloats sd) sc (rm.getD rules)) ↔
      x ∈ Dict.keys sd ∨ x ∈ Dict.keys sc ∨ x ∈ rulesNodes (rm.getD rules) := by
    intro x
    rw [mem_keys_ensureAll, Dict.keys_toFloats]
  have hdir : ∀ x, x ∈ Dict.keys
        (applyDirect sc (ensureAll (toFloats sd) sc (rm.getD rules))).2 ↔
      x ∈ Dict.keys (ensureAll (toFloats sd) sc (rm.getD rules)) ∨
        x ∈ Dict.keys sc :=
    fun x => mem_keys_foldl_directStep sc ([], ensureAll (toFloats sd) sc (rm.getD rules)) x
  have hloop := propagateLoop_keys_incl (rm.getD rules) t a n 0.8
    (applyDirect sc (ensureAll (toFloats sd) sc (rm.getD rules))).1
    (applyDirect sc (ensureAll (toFloats sd) sc (rm.getD rules))).2
  constructor
  · constructor
    · intro hmem
      rw [hr] at hmem
      rcases hloop.2 hmem with h' | h'
      · rcases (hdir a).1 h' with h'' | h''
        · exact (hu₁ a).1 h''
        · exact Or.inr (Or.inl h'')
      · exact Or.inr (Or.inr (targetsOf_subset_rulesNodes h'))
    · intro hmem
      rw [hr]
      apply hloop.1
      apply (hdir a).2
      exact Or.inl ((hu₁ a).2 hmem)
  · intro h1 h2 h3 h4
    have hu₀ : Dict.get? (toFloats sd) a = none :=
      Dict.get?_eq_none_of_not_mem (by rw [Dict.keys_toFloats]; exact h1)
    have hu₁a : Dict.get? (ensureAll (toFloats sd) sc (rm.getD rules)) a = some 0 := by
      apply foldl_setdefault_get?_none _ _ _ hu₀
      simp only [List.mem_append]
      tauto
    have hdira : Dict.get?
        (applyDirect sc (ensureAll (toFloats sd) sc (rm.getD rules))).2 a = some 0 := by
      rw [applyDirect_get?_not_mem sc _ a h2]
      exact hu₁a
    rw [hr, propagateLoop_get?_not_target h3]
    exact hdira

/-- C7: neither apply_rules nor run_simulation mutates the caller's values
map or change map: threading the caller-owned argument objects through every
statement of either body returns them unchanged, while producing the same
result as the untracked functions. -/
theorem claim_C7 (st : ArgState) (rm : Option (Dict (Dict ℚ))) (n : Nat) (t : ℚ) :
    (applyRulesTracked st rm n t).2 = st ∧
      (runSimulationTracked st rm).2 = st ∧
      (applyRulesTracked st rm n t).1 =
        applyRulesArg st.sector_data st.sector_changes rm n t ∧
      (runSimulationTracked st rm).1 =
        run_simulation st.sector_data st.sector_changes rm := by
  rcases st with ⟨sd, sc⟩
  cases sd with
  | nonDict => exact ⟨rfl, rfl, rfl, rfl⟩
  | dict d =>
    refine ⟨?_, ?_, ?_, ?_⟩ <;>
      simp only [applyRulesTracked, runSimulationTracked, applyRulesArg,
        apply_rules, run_simulation] <;>
      cases copyFloat d <;> rfl

/-- C8: apply_rules always terminates with a result on well-typed input
(it completes normally exactly when every sector value is numeric), and its
cascade loop executes at most `max_iterations` rounds, returning the state it
has reached when the cap is hit rather than an error. -/
theorem claim_C8 (sd sc : Dict PyVal) (rm : Option (Dict (Dict ℚ))) (n : Nat)
    (t damping : ℚ) (cur upd : Dict ℚ) :
    isOk (apply_rules sd sc rm n t) = isNumeric sd ∧
      (propagateLoopCount (rm.getD rules) t n damping cur upd).2 ≤ n ∧
      (propagateLoopCount (rm.getD rules) t n damping cur upd).1 =
        propagateLoop (rm.getD rules) t n damping cur upd :=
  ⟨apply_rules_isOk sd sc rm n t,
   propagateLoopCount_le (rm.getD rules) t n damping cur upd,
   propagateLoopCount_fst (rm.getD rules) t n damping cur upd⟩

/-- C9: apply_rules with an empty change map leaves every original key of the
values map at its original value: the empty change map seeds no frontier, so
the loop exits before changing anything. -/
theorem claim_C9 (sd : Dict PyVal) (rm : Option (Dict (Dict ℚ))) (n : Nat)
    (t : ℚ) (s : String) (v : ℚ)
    (hnum : isNumeric sd = true)
    (hs : Dict.get? sd s = some (PyVal.num v)) :
    ∃ r, apply_rules sd [] rm n t = .ok r ∧ Dict.get? r s = some v := by
  refine ⟨_, apply_rules_ok hnum [] rm n t, ?_⟩
  have h₀ : Dict.get? (toFloats sd) s = some v := Dict.get?_toFloats hs
  have h₁ : Dict.get? (ensureAll (toFloats sd) [] (rm.getD rules)) s =
      Dict.get? (toFloats sd) s :=
    ensureAll_get?_isSome (by simp [h₀]) [] (rm.getD rules)
  show Dict.get? (propagateLoop (rm.getD rules) t n 0.8 []
    (ensureAll (toFloats sd) [] (rm.getD rules))) s = some v
  rw [propagateLoop_nil, h₁, h₀]

/-- C10: a sector that is a key of the values map, has no entry in the change
map, and is not the target of any edge of the effective rules map keeps
exactly its original value through apply_rules: direct deltas touch only
change-map keys and cascaded effects touch only edge targets. -/
theorem claim_C10 (sd sc : Dict PyVal) (rm : Option (Dict (Dict ℚ))) (n : Nat)
    (t : ℚ) (s : String) (v : ℚ)
    (hnum : isNumeric sd = true)
    (hs : Dict.get? sd s = some (PyVal.num v))
    (hnc : s ∉ Dict.keys sc)
    (hnt : s ∉ targetsOf (rm.getD rules)) :
    ∃ r, apply_rules sd sc rm n t = .ok r ∧ Dict.get? r s = some v := by
  refine ⟨_, apply_rules_ok hnum sc rm n t, ?_⟩
  have h₀ : Dict.get? (toFloats sd) s = some v := Dict.get?_toFloats hs
  have h₁ : Dict.get? (ensureAll (toFloats sd) sc (rm.getD rules)) s = some v := by
    rw [ensureAll_get?_isSome (by simp [h₀]) sc (rm.getD rules)]
    exact h₀
  have h₂ : Dict.get?
      (applyDirect sc (ensureAll (toFloats sd) sc (rm.getD rules))).2 s = some v := by
    rw [applyDirect_get?_not_mem sc _ s hnc]
    exact h₁
  rw [propagateLoop_get?_not_target hnt]
  exact h₂

/-! ### Concrete evaluations

Batteries marks the arithmetic of ℚ `@[irreducible]`; the concrete scenario
and the witnesses below evaluate the engine on closed inputs, so rational
arithmetic is made reducible for the remainder of the file. -/

attribute [local semireducible] Rat.mul Rat.add Rat.sub Rat.inv Rat.ofScientific

/-- C2: on baseline {transport: 1000, industry: 2000, power: 3000}, graph
{transport: {industry: -0.05, power: -0.02}, industry: {power: -0.08}} and
change {transport: -0.20} with the defaults (10 iterations, tolerance 1e-6),
the engine returns transport = 800, industry = 2008 and power = 3002.7392
exactly (the model computes in exact rationals); round 1 brings power to
3003.2, and round 2 (damping 0.72) adds 8 × -0.08 × 0.72 = -0.4608 to it. -/
theorem claim_C2 :
    ((run_simulation
        (.dict [("transport", .num 1000), ("industry", .num 2000), ("power", .num 3000)])
        [("transport", .num (-0.20))]
        (some [("transport", [("industry", -0.05), ("power", -0.02)]),
               ("industry", [("power", -0.08)])])).toOption.map
      (fun r => (Dict.get? r "transport", Dict.get? r "industry", Dict.get? r "power"))
      = some (some 800, some 2008, some 3002.7392)) ∧
    ((propagateRound [("transport", [("industry", -0.05), ("power", -0.02)]),
        ("industry", [("power", -0.08)])] (1e-6) 0.8
        [("transport", -200)]
        [("transport", 800), ("industry", 2000), ("power", 3000)]).1.get? "power"
      = some 3003.2) ∧
    ((propagateRound [("transport", [("industry", -0.05), ("power", -0.02)]),
        ("industry", [("power", -0.08)])] (1e-6) 0.72
        [("industry", 8), ("power", 3.2)]
        [("transport", 800), ("industry", 2008), ("power", 3003.2)]).1.get? "power"
      = some 3002.7392) ∧
    ((propagateRound [("transport", [("industry", -0.05), ("power", -0.02)]),
        ("industry", [("power", -0.08)])] (1e-6) 0.72
        [("industry", 8), ("power", 3.2)]
        [("transport", 800), ("industry", 2008), ("power", 3003.2)]).2.1.get? "power"
      = some (-0.4608)) := by
  exact ⟨by decide, by decide, by decide, by decide⟩

/-- C4 counterexample: a non-numeric sector value is not coerced to 0.0 — the
engine's initial copy of the value map (line 60, which has no try/except)
raises a float conversion error, so the run does not complete normally. -/
theorem claim_C4_counterexample :
    apply_rules [("industry", PyVal.nonNum)] [] none 10 (1e-6) =
        .error .floatConvError ∧
      isOk (apply_rules [("industry", PyVal.nonNum)] [] none 10 (1e-6)) = false :=
  ⟨rfl, rfl⟩

/-- C5 counterexample: on a non-mapping `values` argument the engine does not
raise an invalid-argument (ValueError) failure — it has no isinstance guard
and fails with an AttributeError from `.items()` instead. -/
theorem claim_C5_counterexample :
    applyRulesArg .nonDict [("transport", PyVal.num (-0.2))] none 10 (1e-6) =
        .error .attributeError ∧
      isInvalidArg
        (applyRulesArg .nonDict [("transport", PyVal.num (-0.2))] none 10 (1e-6)) =
        false :=
  ⟨rfl, rfl⟩

/-- C3 witness: -20 is treated as a percentage and becomes -0.20, while 1 is
on the boundary and is kept as the fraction 1.0. -/
theorem claim_C3_witness :
    Dict.get? (normalize_changes [("x", PyVal.num 1), ("y", PyVal.num (-20))]) "x"
        = some (if 1 < |(1 : ℚ)| then 1 / 100 else 1) ∧
      Dict.get? (normalize_changes [("x", PyVal.num 1), ("y", PyVal.num (-20))]) "y"
        = some (if 1 < |(-20 : ℚ)| then (-20) / 100 else (-20)) :=
  ⟨claim_C3 _ "x" 1 (by decide) (by decide),
   claim_C3 _ "y" (-20) (by decide) (by decide)⟩

/-- C4 witness: the amended claim at concrete inputs — a non-numeric change
entry normalizes to 0 and leaves the target value unchanged, and the engine
completes normally on an all-numeric value map. -/
theorem claim_C4_witness :
    Dict.get? (normalize_changes [("x", PyVal.nonNum)]) "x" = some 0 ∧
      Dict.getD (applyDirect [("x", PyVal.nonNum)] [("x", 5)]).2 "x" 0 =
        Dict.getD [("x", (5 : ℚ))] "x" 0 ∧
      isOk (apply_rules [("x", PyVal.num 5)] [("y", PyVal.nonNum)] none 10 (1e-6)) =
        isNumeric [("x", PyVal.num 5)] :=
  ⟨claim_C4_amended.1 _ "x" (by decide) (by decide),
   claim_C4_amended.2.1 _ _ "x" (by decide) (by decide),
   claim_C4_amended.2.2 _ _ none 10 (1e-6)⟩

/-- C5 witness: the amended claim at concrete inputs. -/
theorem claim_C5_witness :
    run_simulation .nonDict [("x", PyVal.num 1)] none =
        .error (.valueError "sector_data must be a dict mapping sector->value") ∧
      applyRulesArg .nonDict [("x", PyVal.num 1)] none 10 (1e-6) =
        .error .attributeError ∧
      isInvalidArg
        (run_simulation (.dict [("a", PyVal.num 1)]) [("x", PyVal.num 1)] none) = false ∧
      isInvalidArg
        (applyRulesArg (.dict [("a", PyVal.num 1)]) [("x", PyVal.num 1)] none 10 (1e-6)) =
        false :=
  ⟨claim_C5_amended.1 _ none, claim_C5_amended.2.1 _ none 10 (1e-6),
   claim_C5_amended.2.2.1 _ _ none,
   (claim_C5_amended.2.2.2 _ _ none 10 (1e-6)).1⟩

/-- C6 witness: with values {a: 1}, changes {b: 1} and graph {c: {d: 0.5}},
the result's key set is {a, b, c, d} — in particular it contains the graph
source c — and the sector c, which is absent from the values map, unchanged
and not the target of any edge, comes out as 0.0. -/
theorem claim_C6_witness :
    ("c" ∈ Dict.keys [("a", (1 : ℚ)), ("b", 0), ("c", 0), ("d", 0)] ↔
      "c" ∈ Dict.keys [("a", PyVal.num 1)] ∨ "c" ∈ Dict.keys [("b", PyVal.num 1)] ∨
        "c" ∈ rulesNodes ((some [("c", [("d", (0.5 : ℚ))])]).getD rules)) ∧
      Dict.get? [("a", (1 : ℚ)), ("b", 0), ("c", 0), ("d", 0)] "c" = some 0 :=
  have h := claim_C6 [("a", PyVal.num 1)] [("b", PyVal.num 1)]
    (some [("c", [("d", 0.5)])]) 10 (1e-6)
    [("a", 1), ("b", 0), ("c", 0), ("d", 0)] "c" (by rfl)
  ⟨h.1, h.2 (by decide) (by decide) (by decide) (by decide)⟩

/-- C9 witness: an empty change map leaves the single sector at its value. -/
theorem claim_C9_witness :
    ∃ r, apply_rules [("x", PyVal.num 2)] [] none 10 (1e-6) = .ok r ∧
      Dict.get? r "x" = some 2 :=
  claim_C9 [("x", PyVal.num 2)] none 10 (1e-6) "x" 2 (by decide) (by decide)

/-- C10 witness: under the default rules, transport is nobody's target, so a
change to industry leaves transport's value exactly as it was. -/
theorem claim_C10_witness :
    ∃ r, apply_rules [("transport", PyVal.num 100)] [("industry", PyVal.num 1)]
        none 10 (1e-6) = .ok r ∧ Dict.get? r "transport" = some 100 :=
  claim_C10 _ _ none 10 (1e-6) "transport" 100
    (by decide) (by decide) (by decide) (by decide)

end Co2
